import Mathlib

/-!
Shallow embedding of the eson schema-normalization engine (Rust sources
src/src/model.rs, src/src/dependencies.rs, src/src/normalize.rs) and proofs
about its dependency-closure and normalization operations.

Modelling conventions:
* Field and table names are interned symbols in the source (src/src/symbols.rs);
  they are opaque, hashable, totally ordered identifiers.  We model them as
  natural numbers; in concrete scenarios numbers are assigned in the
  alphabetical order of the original string names, so sorting behaves as in
  the original program.
* Rust `HashSet<FieldName>` values are modelled as canonically sorted,
  duplicate-free lists (`canon`).  Iterating a set is modelled as iterating
  that sorted list; set equality then coincides with list equality.
* Rust `HashMap<K, V>` values are modelled as association lists; iteration
  order of a hash map is unspecified in Rust, so the model fixes the list
  order as the canonical iteration order.  `IndexMap` (used for table fields)
  is an insertion-ordered map, which an association list models exactly.
* Unbounded `while` loops (the FD-closure fixed point, the subsumption loop)
  take an explicit fuel argument; loop exit within the fuel is distinguished
  from fuel exhaustion where a claim depends on it.
-/

/-- Field names: opaque interned symbols (src/src/symbols.rs), modelled as
naturals ordered compatibly with the original string order. -/
abbrev FieldName := Nat

/-- Table names: opaque interned symbols, modelled as naturals. -/
abbrev TableName := Nat

/-- Canonical form of a Rust `HashSet<FieldName>`: sorted and duplicate-free.
`Vec::sort` followed by `Vec::dedup` produces exactly this list. -/
def canon (l : List FieldName) : List FieldName :=
  (l.insertionSort (· ≤ ·)).dedup

/-- A functional dependency (struct `FD` in src/src/dependencies.rs).
Both sides are `HashSet<FieldName>` in the source, kept here in canonical
sorted duplicate-free list form. -/
structure FD where
  lhs : List FieldName
  rhs : List FieldName
deriving DecidableEq, Repr

/-- FD::is_trivial (src/src/dependencies.rs): `rhs ⊆ lhs`. -/
def FD.is_trivial (fd : FD) : Bool :=
  fd.rhs.all (fun f => decide (f ∈ fd.lhs))

/-- FD::reverse (src/src/dependencies.rs): swap the two sides. -/
def FD.reverse (fd : FD) : FD :=
  ⟨fd.rhs, fd.lhs⟩

/-- The per-table FD store: Rust `HashMap<Vec<FieldName>, FD>` keyed by the
sorted left-hand side, modelled as an association list. -/
abbrev FDMap := List (List FieldName × FD)

/-- HashMap::get. -/
def fdLookup : FDMap → List FieldName → Option FD
  | [], _ => none
  | p :: rest, k => if p.1 = k then some p.2 else fdLookup rest k

/-- HashMap::insert (replaces the value under an existing key). -/
def fdInsert : FDMap → List FieldName → FD → FDMap
  | [], k, v => [(k, v)]
  | p :: rest, k, v => if p.1 = k then (k, v) :: rest else p :: fdInsert rest k v

/-- HashMap::remove. -/
def fdErase : FDMap → List FieldName → FDMap
  | [], _ => []
  | p :: rest, k => if p.1 = k then rest else p :: fdErase rest k

/-- HashMap::values. -/
def fdValues (m : FDMap) : List FD := m.map Prod.snd

/-- HashSet::is_subset. -/
def setSubset (a b : List FieldName) : Bool :=
  a.all (fun f => decide (f ∈ b))

/-- HashSet::extend: set union, in canonical form. -/
def setUnion (a b : List FieldName) : List FieldName :=
  canon (a ++ b)

/-!
FD closure (trait impl `FDClosure for HashMap<Vec<FieldName>, FD>`,
src/src/dependencies.rs lines 45-106): a fixed-point loop; each pass scans
all ordered pairs of stored FDs, proposes transitively inferred FDs, and
inserts those that change the map.
-/

/-- One candidate inference step for the pair `(fd1, fd2)`: the body of the
inner double loop of `closure` (src/src/dependencies.rs lines 56-82).
Returns the FD pushed onto `new_fds`, if any. -/
def inferredFD (m : FDMap) (fd1 fd2 : FD) : Option FD :=
  if fd1 = fd2 ∨ ¬ setSubset fd2.lhs fd1.rhs then none
  else
    let lhsCopy := fd1.lhs.insertionSort (· ≤ ·)
    match fdLookup m lhsCopy with
    | some old =>
        let newFd : FD := ⟨fd1.lhs, (setUnion old.rhs fd2.rhs).filter (fun f => !decide (f ∈ lhsCopy))⟩
        if ¬ setSubset newFd.rhs old.rhs then some newFd else none
    | none => some ⟨fd1.lhs, fd2.rhs.filter (fun f => !decide (f ∈ fd1.lhs))⟩

/-- All FDs pushed onto `new_fds` during one pass of the closure loop. -/
def newFDs (m : FDMap) : List FD :=
  (fdValues m).flatMap (fun fd1 => (fdValues m).filterMap (fun fd2 => inferredFD m fd1 fd2))

/-- Insertion of the discovered FDs (src/src/dependencies.rs lines 86-97):
each FD is keyed by its sorted lhs and inserted when the map does not already
hold an equal FD under that key; `changed` records whether any insertion
happened. -/
def applyNewFDs : List FD → FDMap → Bool → FDMap × Bool
  | [], m, changed => (m, changed)
  | fd :: rest, m, changed =>
    let key := fd.lhs.insertionSort (· ≤ ·)
    if fdLookup m key = some fd then applyNewFDs rest m changed
    else applyNewFDs rest (fdInsert m key fd) true

/-- One iteration of the `while changed` body of `closure`. -/
def closurePass (m : FDMap) : FDMap × Bool :=
  applyNewFDs (newFDs m) m false

/-- The `while changed` loop of `closure`, with fuel.  `none` means the fuel
ran out before the loop exited; `some (m, anyChanged)` is the map at loop
exit together with the returned `any_changed` flag. -/
def closureLoop : Nat → FDMap → Bool → Option (FDMap × Bool)
  | 0, _, _ => none
  | fuel + 1, m, acc =>
    let p := closurePass m
    if p.2 then closureLoop fuel p.1 true else some (p.1, acc)

/-- FDClosure::closure (src/src/dependencies.rs lines 46-105), with fuel.
The source name `closure` is taken by Mathlib, hence the `fd` prefix. -/
def fdClosure (fuel : Nat) (m : FDMap) : Option (FDMap × Bool) :=
  closureLoop fuel m false

/-- The closure result when the fuel suffices, the unchanged map otherwise;
used where the source calls `closure` for its side effect only. -/
def runClosure (fuel : Nat) (m : FDMap) : FDMap :=
  (((fdClosure fuel m).map Prod.fst).getD m)

/-! Helper lemmas about the closure loop. -/

theorem applyNewFDs_true_snd (l : List FD) (m : FDMap) :
    (applyNewFDs l m true).2 = true := by
  induction l generalizing m with
  | nil => rfl
  | cons fd rest ih =>
      simp only [applyNewFDs]
      split <;> exact ih _

theorem applyNewFDs_false_eq (l : List FD) (m : FDMap) (m2 : FDMap)
    (h : applyNewFDs l m false = (m2, false)) : m2 = m := by
  induction l generalizing m with
  | nil => simpa [applyNewFDs] using h.symm
  | cons fd rest ih =>
      simp only [applyNewFDs] at h
      split at h
      · exact ih _ h
      · have := applyNewFDs_true_snd rest
          (fdInsert m (List.insertionSort (fun a b => a ≤ b) fd.lhs) fd)
        rw [h] at this
        cases this

theorem closurePass_false_eq (m m2 : FDMap) (h : closurePass m = (m2, false)) :
    m2 = m :=
  applyNewFDs_false_eq (newFDs m) m m2 h

theorem closureLoop_exit (fuel : Nat) (m : FDMap) (acc : Bool) (m2 : FDMap) (b : Bool)
    (h : closureLoop fuel m acc = some (m2, b)) : closurePass m2 = (m2, false) := by
  induction fuel generalizing m acc with
  | zero => cases h
  | succ fuel ih =>
      simp only [closureLoop] at h
      by_cases hc : (closurePass m).2 = true
      · rw [if_pos hc] at h
        exact ih _ _ h
      · rw [if_neg hc] at h
        have hc2 : (closurePass m).2 = false := by
          cases hp : (closurePass m).2
          · rfl
          · exact absurd hp hc
        have hpass : closurePass m = ((closurePass m).1, false) := by
          rw [← hc2]
        have hm3 : (closurePass m).1 = m := closurePass_false_eq m _ hpass
        have hm2 : m2 = (closurePass m).1 := by
          have := h
          simp only [Option.some.injEq, Prod.mk.injEq] at this
          exact this.1.symm
        rw [hm2, hm3]
        rw [hm3] at hpass
        exact hpass

/-! Scenario S1 (test `fd_closure` in src/src/dependencies.rs): table
`t(foo, bar, baz)` with FDs `foo → bar` and `bar → baz`.  Interned names in
alphabetical order: bar = 0, baz = 1, foo = 2. -/

/-- The FD map of scenario S1: `foo → bar`, `bar → baz`. -/
def fdsS1 : FDMap :=
  [([2], ⟨[2], [0]⟩), ([0], ⟨[0], [1]⟩)]

/-- C4: for the FD map containing exactly `foo → bar` and `bar → baz`, after
`closure()` returns (here: the loop exits within fuel 2, reporting a change)
there is an entry with key `[foo]` whose right-hand side includes both `bar`
and `baz`. -/
theorem fd_closure_transitive_scenario :
    ∃ m fd, fdClosure 2 fdsS1 = some (m, true) ∧ fdLookup m [2] = some fd ∧
      0 ∈ fd.rhs ∧ 1 ∈ fd.rhs :=
  ⟨[([2], ⟨[2], [0, 1]⟩), ([0], ⟨[0], [1]⟩)], ⟨[2], [0, 1]⟩,
    by decide, by decide, by decide, by decide⟩

/-- C5: FD closure is idempotent.  Whenever `closure` returns (the loop exits
within the fuel), running `closure` again on the resulting map performs no
change and returns `false`, for any positive fuel. -/
theorem fd_closure_idempotent (fuel fuel2 : Nat) (m m2 : FDMap) (b : Bool)
    (h : fdClosure fuel m = some (m2, b)) (h2 : 0 < fuel2) :
    fdClosure fuel2 m2 = some (m2, false) := by
  have hpass := closureLoop_exit fuel m false m2 b h
  cases fuel2 with
  | zero => cases h2
  | succ k =>
      show closureLoop (k + 1) m2 false = some (m2, false)
      simp only [closureLoop, hpass]
      rfl

/-- Witness for `fd_closure_idempotent` at the one-entry map `{a → b}`. -/
theorem fd_closure_idempotent_witness :
    fdClosure 1 [([0], (⟨[0], [1]⟩ : FD))] = some ([([0], ⟨[0], [1]⟩)], false) :=
  fd_closure_idempotent 1 1 [([0], ⟨[0], [1]⟩)] [([0], ⟨[0], [1]⟩)] false
    (by decide) (by decide)

/-! The table data model (src/src/model.rs). -/

/-- A field of a table (struct `Field` in src/src/model.rs; the source name
is taken by Mathlib). -/
structure TableField where
  name : FieldName
  key : Bool
  cardinality : Option Nat
  max_length : Option Nat
deriving DecidableEq, Repr

/-- A table (struct `Table`, src/src/model.rs).  `fields` is an `IndexMap`
in the source: an insertion-ordered map, modelled exactly by an association
list. -/
structure Table where
  name : TableName
  fields : List (FieldName × TableField)
  fds : FDMap
  row_count : Option Nat
deriving DecidableEq, Repr

/-- Table::default (src/src/model.rs): empty name, no fields, no FDs. -/
def defaultTable : Table := ⟨0, [], [], none⟩

/-- IndexMap::contains_key on a table's field map. -/
def Table.hasField (t : Table) (f : FieldName) : Bool :=
  t.fields.any (fun p => decide (p.1 = f))

/-- Table::prune_fds (src/src/model.rs lines 627-636): restrict every FD to
the fields the table still has, then drop FDs with an empty side. -/
def Table.prune_fds (t : Table) : Table :=
  let restricted := t.fds.map (fun p =>
    (p.1, FD.mk (p.2.lhs.filter (fun f => t.hasField f))
                (p.2.rhs.filter (fun f => t.hasField f))))
  { t with fds := restricted.filter (fun p => !p.2.lhs.isEmpty && !p.2.rhs.isEmpty) }

/-- The keys collected for removal by `Table::minimize_fds`
(src/src/model.rs lines 642-656): the sorted lhs of every FD `A → B` whose
exact reverse `B → A` is stored (looked up under the canonical iteration
order of the set `B`) with `|A| > |B|`. -/
def minimizeRemoveKeys (t : Table) : List (List FieldName) :=
  t.fds.filterMap (fun p =>
    match fdLookup t.fds p.2.rhs with
    | some stored =>
        if stored = p.2.reverse ∧ p.2.reverse.lhs.length < p.2.lhs.length then
          some (p.2.lhs.insertionSort (· ≤ ·))
        else none
    | none => none)

/-- Table::minimize_fds (src/src/model.rs lines 641-661): remove the
collected keys from the FD store. -/
def Table.minimize_fds (t : Table) : Table :=
  { t with fds := (minimizeRemoveKeys t).foldl fdErase t.fds }

/-! Association-list map lemmas used by the FD-store proofs. -/

theorem fdLookup_eq_some_of_mem (m : FDMap) (hnd : (m.map Prod.fst).Nodup)
    (k : List FieldName) (v : FD) (hm : (k, v) ∈ m) : fdLookup m k = some v := by
  induction m with
  | nil => cases hm
  | cons p rest ih =>
      simp only [List.map_cons, List.nodup_cons] at hnd
      rcases List.mem_cons.mp hm with h | h
      · subst h
        simp [fdLookup]
      · have hne : p.1 ≠ k := by
          intro hk
          exact hnd.1 (hk ▸ (List.mem_map.mpr ⟨(k, v), h, rfl⟩))
        simp only [fdLookup, if_neg hne]
        exact ih hnd.2 h

theorem fdLookup_mem (m : FDMap) (k : List FieldName) (v : FD)
    (h : fdLookup m k = some v) : (k, v) ∈ m := by
  induction m with
  | nil => cases h
  | cons p rest ih =>
      simp only [fdLookup] at h
      by_cases hk : p.1 = k
      · rw [if_pos hk] at h
        have : p = (k, v) := by
          cases p
          simp only [Option.some.injEq] at h
          simp_all
        exact this ▸ List.mem_cons_self p rest
      · rw [if_neg hk] at h
        exact List.mem_cons_of_mem _ (ih h)

theorem fd_keys_unique (m : FDMap) (hnd : (m.map Prod.fst).Nodup)
    (k : List FieldName) (v1 v2 : FD) (h1 : (k, v1) ∈ m) (h2 : (k, v2) ∈ m) :
    v1 = v2 := by
  have e1 := fdLookup_eq_some_of_mem m hnd k v1 h1
  have e2 := fdLookup_eq_some_of_mem m hnd k v2 h2
  rw [e1] at e2
  exact Option.some.inj e2

theorem fdErase_eq_filter (m : FDMap) (hnd : (m.map Prod.fst).Nodup)
    (k : List FieldName) : fdErase m k = m.filter (fun p => !decide (p.1 = k)) := by
  induction m with
  | nil => rfl
  | cons p rest ih =>
      simp only [List.map_cons, List.nodup_cons] at hnd
      by_cases hk : p.1 = k
      · have hall : ∀ q ∈ rest, (!decide (q.1 = k)) = true := by
          intro q hq
          have hqk : q.1 ≠ k := by
            intro hqk
            exact hnd.1 (hk ▸ hqk ▸ (List.mem_map.mpr ⟨q, hq, rfl⟩))
          simp [hqk]
        simp only [fdErase, if_pos hk, List.filter_cons, hk]
        rw [List.filter_eq_self.mpr hall]
        simp
      · simp only [fdErase, if_neg hk, List.filter_cons, hk]
        rw [ih hnd.2]
        simp [hk]

theorem nodup_keys_filter (m : FDMap) (hnd : (m.map Prod.fst).Nodup)
    (p : List FieldName × FD → Bool) :
    ((m.filter p).map Prod.fst).Nodup :=
  List.Nodup.sublist (List.Sublist.map Prod.fst (List.filter_sublist m)) hnd

theorem foldl_fdErase_eq_filter (ks : List (List FieldName)) (m : FDMap)
    (hnd : (m.map Prod.fst).Nodup) :
    ks.foldl fdErase m = m.filter (fun p => !decide (p.1 ∈ ks)) := by
  induction ks generalizing m with
  | nil => simp
  | cons k ks ih =>
      simp only [List.foldl_cons]
      rw [fdErase_eq_filter m hnd k]
      rw [ih _ (nodup_keys_filter m hnd _)]
      rw [List.filter_filter]
      apply List.filter_congr
      intro p _
      by_cases h1 : p.1 = k <;> by_cases h2 : p.1 ∈ ks <;>
        simp [h1, h2, List.mem_cons]

/-- C3: for every table whose FD store satisfies the schema invariants
(duplicate-free keys, each key the sorted lhs of its FD, canonically sorted
rhs sets), `minimize_fds` removes exactly those stored FDs `A → B` such that
the exact reverse FD `B → A` is also stored and `|A| > |B|`, and leaves every
other FD unchanged (same key, same FD). -/
theorem minimize_fds_spec (t : Table)
    (hnd : (t.fds.map Prod.fst).Nodup)
    (hkey : ∀ p ∈ t.fds, p.1 = p.2.lhs.insertionSort (· ≤ ·))
    (hsorted : ∀ p ∈ t.fds, List.Sorted (· ≤ ·) p.2.rhs)
    (k : List FieldName) (fd : FD) :
    (k, fd) ∈ (t.minimize_fds).fds ↔
      ((k, fd) ∈ t.fds ∧
        ¬ ((∃ k2, (k2, fd.reverse) ∈ t.fds) ∧ fd.rhs.length < fd.lhs.length)) := by
  have hfilter : (t.minimize_fds).fds
      = t.fds.filter (fun p => !decide (p.1 ∈ minimizeRemoveKeys t)) :=
    foldl_fdErase_eq_filter _ _ hnd
  rw [hfilter, List.mem_filter]
  simp only [Bool.not_eq_true', decide_eq_false_iff_not]
  apply and_congr_right
  intro hmem
  rw [not_iff_not]
  constructor
  · intro hk
    rcases List.mem_filterMap.mp hk with ⟨p, hp, hf⟩
    rcases p with ⟨k1, fd1⟩
    dsimp only at hf
    rcases hlook : fdLookup t.fds fd1.rhs with _ | stored
    · rw [hlook] at hf
      dsimp only at hf
      cases hf
    · rw [hlook] at hf
      dsimp only at hf
      by_cases hcond : stored = fd1.reverse ∧ fd1.reverse.lhs.length < fd1.lhs.length
      · rw [if_pos hcond] at hf
        have hk0 : fd1.lhs.insertionSort (· ≤ ·) = k := Option.some.inj hf
        have hk1 : k1 = k := (hkey (k1, fd1) hp).trans hk0
        have hfd1 : fd = fd1 := by
          apply (fd_keys_unique t.fds hnd k fd1 fd _ hmem).symm
          rw [← hk1]
          exact hp
        subst hfd1
        refine ⟨⟨fd.rhs, ?_⟩, ?_⟩
        · have hx : fdLookup t.fds fd.rhs = some fd.reverse := by
            rw [hlook, hcond.1]
          exact fdLookup_mem _ _ _ hx
        · exact hcond.2
      · rw [if_neg hcond] at hf
        cases hf
  · rintro ⟨⟨k2, hrev⟩, hlen⟩
    apply List.mem_filterMap.mpr
    refine ⟨(k, fd), hmem, ?_⟩
    have hk2 : k2 = fd.rhs := by
      have hx := hkey (k2, fd.reverse) hrev
      dsimp only at hx
      rw [hx]
      have hs := hsorted (k, fd) hmem
      dsimp only at hs
      exact List.Sorted.insertionSort_eq hs
    have hlook : fdLookup t.fds fd.rhs = some fd.reverse := by
      apply fdLookup_eq_some_of_mem t.fds hnd
      rw [← hk2]
      exact hrev
    show (match fdLookup t.fds fd.rhs with
      | some stored =>
          if stored = fd.reverse ∧ fd.reverse.lhs.length < fd.lhs.length then
            some (fd.lhs.insertionSort (· ≤ ·))
          else none
      | none => none) = some k
    rw [hlook]
    dsimp only
    rw [if_pos ⟨rfl, (show fd.reverse.lhs.length < fd.lhs.length from hlen)⟩]
    have hk1 := hkey (k, fd) hmem
    dsimp only at hk1
    rw [← hk1]

/-- A concrete table for the minimization witness (test `minimize_fds` in
src/src/model.rs): fields foo(key), bar, baz (bar = 0, baz = 1, foo = 2) with
FDs `foo → {bar, baz}` and `{bar, baz} → foo`. -/
def tMin : Table :=
  ⟨0,
   [(2, ⟨2, true, none, none⟩), (0, ⟨0, false, none, none⟩), (1, ⟨1, false, none, none⟩)],
   [([2], ⟨[2], [0, 1]⟩), ([0, 1], ⟨[0, 1], [2]⟩)],
   none⟩

/-- Witness for `minimize_fds_spec`: in `tMin` the FD `{bar, baz} → foo`
(longer lhs, reverse present) is removed. -/
theorem minimize_fds_spec_witness :
    ¬ (([0, 1], (⟨[0, 1], [2]⟩ : FD)) ∈ (tMin.minimize_fds).fds) := by
  intro hmem
  have h := (minimize_fds_spec tMin (by decide) (by decide) (by decide)
    [0, 1] ⟨[0, 1], [2]⟩).mp hmem
  exact h.2 ⟨⟨[2], by decide⟩, by decide⟩

/-- C10: prune_fds restricts each stored FD to the table's current field
set, removes an FD exactly when a restricted side becomes empty, and keeps
the map key of every surviving FD unchanged. -/
theorem prune_fds_spec (t : Table) (k : List FieldName) (fd2 : FD) :
    (k, fd2) ∈ (t.prune_fds).fds ↔
      ∃ fd, (k, fd) ∈ t.fds ∧
        fd2 = FD.mk (fd.lhs.filter (fun f => t.hasField f))
                    (fd.rhs.filter (fun f => t.hasField f)) ∧
        fd2.lhs ≠ [] ∧ fd2.rhs ≠ [] := by
  simp only [Table.prune_fds, List.mem_filter, List.mem_map]
  constructor
  · rintro ⟨⟨⟨k1, fd1⟩, hp, hpe⟩, hpred⟩
    obtain ⟨hk1, hfd⟩ : k1 = k ∧ FD.mk (fd1.lhs.filter (fun f => t.hasField f))
        (fd1.rhs.filter (fun f => t.hasField f)) = fd2 := by
      simpa using hpe
    subst hk1
    refine ⟨fd1, hp, hfd.symm, ?_, ?_⟩
    · have := (Bool.and_eq_true _ _).mp hpred
      simpa [List.isEmpty_iff] using this.1
    · have := (Bool.and_eq_true _ _).mp hpred
      simpa [List.isEmpty_iff] using this.2
  · rintro ⟨fd, hmem, hfd2, hl, hr⟩
    refine ⟨⟨(k, fd), hmem, by rw [hfd2]⟩, ?_⟩
    simp [List.isEmpty_iff, hl, hr]

/-!
Inclusion dependencies (struct `IND`, src/src/dependencies.rs) and the
schema-level IND store (src/src/model.rs).
-/

/-- An inclusion dependency between two tables (src/src/dependencies.rs
lines 109-122).  Field lists are ordered; position `i` on the left
corresponds to position `i` on the right. -/
structure IND where
  left_table : TableName
  left_fields : List FieldName
  right_table : TableName
  right_fields : List FieldName
deriving DecidableEq, Repr

/-- Modelled from the spec: `IND::is_subset` is called by `Schema::add_ind`
and `Schema::contains_ind` in src/src/model.rs but its definition is not in
src/.  The spec (section 3, "Subset relation on INDs") defines `A ⊆ B` iff
the tables agree and for every position `i` of `A` there is a position `j`
of `B` with `A.left[i] = B.left[j]` and `A.right[i] = B.right[j]`, that is,
every (left, right) column pair of `A` occurs among the column pairs of `B`. -/
def IND.is_subset (a b : IND) : Bool :=
  decide (a.left_table = b.left_table) && decide (a.right_table = b.right_table) &&
  (a.left_fields.zip a.right_fields).all
    (fun p => decide (p ∈ b.left_fields.zip b.right_fields))

/-- The index order used by a stable sort of `v` by value: compare values,
breaking ties by original index. -/
def sortPermRel (v : List FieldName) (i j : Nat) : Prop :=
  v.getD i 0 < v.getD j 0 ∨ (v.getD i 0 = v.getD j 0 ∧ i ≤ j)

instance (v : List FieldName) : DecidableRel (sortPermRel v) := fun i j => by
  unfold sortPermRel
  infer_instance

instance (v : List FieldName) : IsTotal Nat (sortPermRel v) := by
  constructor
  intro i j
  rcases lt_trichotomy (v.getD i 0) (v.getD j 0) with h | h | h
  · exact Or.inl (Or.inl h)
  · rcases Nat.le_total i j with hij | hij
    · exact Or.inl (Or.inr ⟨h, hij⟩)
    · exact Or.inr (Or.inr ⟨h.symm, hij⟩)
  · exact Or.inr (Or.inl h)

instance (v : List FieldName) : IsTrans Nat (sortPermRel v) := by
  constructor
  intro i j k hij hjk
  rcases hij with h1 | ⟨h1, hi1⟩ <;> rcases hjk with h2 | ⟨h2, hi2⟩
  · exact Or.inl (h1.trans h2)
  · exact Or.inl (h2 ▸ h1)
  · exact Or.inl (h1 ▸ h2)
  · exact Or.inr ⟨h1.trans h2, hi1.trans hi2⟩

/-- The permutation produced by `permutation::sort(&v)`: the list of indices
of `v` in stably sorted order (ties broken by original index, which is what
a stable sort by value does). -/
def sortPerm (v : List FieldName) : List Nat :=
  (List.range v.length).insertionSort (sortPermRel v)

/-- `Permutation::apply_slice`: index the target list by the permutation. -/
def applyPerm (σ : List Nat) (w : List FieldName) : List FieldName :=
  σ.map (fun i => w.getD i 0)

/-- IND::reverse (src/src/dependencies.rs lines 138-145): sort the right
field list and apply the same permutation to both sides, swapping the two
sides. -/
def IND.reverse (ind : IND) : IND :=
  let σ := sortPerm ind.right_fields
  ⟨ind.right_table, applyPerm σ ind.right_fields,
   ind.left_table, applyPerm σ ind.left_fields⟩

/-- The IND store of a schema: Rust
`DefaultHashMap<(TableName, TableName), Vec<IND>>`, modelled as an
association list whose lookup defaults to the empty bucket. -/
abbrev INDMap := List ((TableName × TableName) × List IND)

/-- DefaultHashMap::get: the bucket under a key, empty when absent. -/
def indsGet (m : INDMap) (k : TableName × TableName) : List IND :=
  ((m.find? (fun p => decide (p.1 = k))).map Prod.snd).getD []

/-- Store a bucket under a key (replace or append). -/
def indsPut : INDMap → TableName × TableName → List IND → INDMap
  | [], k, v => [(k, v)]
  | p :: rest, k, v => if p.1 = k then (k, v) :: rest else p :: indsPut rest k v

/-- A schema (struct `Schema`, src/src/model.rs lines 15-21). -/
structure Schema where
  tables : List (TableName × Table)
  inds : INDMap
deriving DecidableEq, Repr

/-- HashMap::get on the table store, as an `Option`. -/
def tablesFind (ts : List (TableName × Table)) (n : TableName) : Option Table :=
  (ts.find? (fun p => decide (p.1 = n))).map Prod.snd

/-- Indexing `self.tables[name]` (panics in Rust when absent; the embedding
returns the default table, which the schema invariants keep unreachable). -/
def tablesGet (ts : List (TableName × Table)) (n : TableName) : Table :=
  (tablesFind ts n).getD defaultTable

/-- HashMap::contains_key on the table store. -/
def tablesContains (ts : List (TableName × Table)) (n : TableName) : Bool :=
  ts.any (fun p => decide (p.1 = n))

/-- HashMap::insert on the table store. -/
def tablesPut : List (TableName × Table) → TableName → Table → List (TableName × Table)
  | [], n, t => [(n, t)]
  | p :: rest, n, t => if p.1 = n then (n, t) :: rest else p :: tablesPut rest n t

/-- Schema::add_ind (src/src/model.rs lines 45-55): push the IND into the
bucket keyed by its table pair unless some existing IND of that bucket has
`ind ⊆ existing`; return whether it was pushed. -/
def Schema.add_ind (s : Schema) (ind : IND) : Schema × Bool :=
  let key := (ind.left_table, ind.right_table)
  let bucket := indsGet s.inds key
  if bucket.any (fun ind2 => ind.is_subset ind2) then (s, false)
  else ({ s with inds := indsPut s.inds key (bucket ++ [ind]) }, true)

/-- Schema::contains_ind (src/src/model.rs lines 68-72). -/
def Schema.contains_ind (s : Schema) (ind : IND) : Bool :=
  s.inds.any (fun p => p.2.any (fun i => ind.is_subset i))

/-- C1 counterexample input: the schema of test `schema_add_ind_subset`
(src/src/model.rs) after its first `add_ind`.  Tables baz = 1, foo = 2;
fields bar = 0, corge = 1, quux = 2, qux = 3.  The bucket (foo, baz) holds
the IND foo(bar) ≤ baz(quux). -/
def sAdd : Schema :=
  ⟨[(2, ⟨2, [(0, ⟨0, false, none, none⟩), (3, ⟨3, false, none, none⟩)], [], none⟩),
    (1, ⟨1, [(2, ⟨2, false, none, none⟩), (1, ⟨1, false, none, none⟩)], [], none⟩)],
   [((2, 1), [⟨2, [0], 1, [2]⟩])]⟩

/-- C1 counterexample: adding the strictly containing IND
foo(bar, qux) ≤ baz(quux, corge) to `sAdd` returns true and leaves the bucket
holding both INDs, the old one a subset of the new one — so after an
`add_ind` call a bucket does contain two INDs where one is a subset of the
other, and the subset-dominated entry is not removed. -/
theorem add_ind_subset_counterexample :
    (sAdd.add_ind ⟨2, [0, 3], 1, [2, 1]⟩).2 = true ∧
    indsGet (sAdd.add_ind ⟨2, [0, 3], 1, [2, 1]⟩).1.inds (2, 1)
      = [⟨2, [0], 1, [2]⟩, ⟨2, [0, 3], 1, [2, 1]⟩] ∧
    IND.is_subset ⟨2, [0], 1, [2]⟩ ⟨2, [0, 3], 1, [2, 1]⟩ = true ∧
    (⟨2, [0], 1, [2]⟩ : IND) ≠ ⟨2, [0, 3], 1, [2, 1]⟩ := by
  refine ⟨by decide, by decide, by decide, by decide⟩

/-- C1 amended: `add_ind(ind)` inserts `ind` at the end of its bucket and
returns true exactly when no existing IND of the bucket has
`ind ⊆ existing`; otherwise it returns false and the schema is unchanged.
Nothing is ever removed, so an existing IND that is a subset of the new one
stays behind. -/
theorem add_ind_insertion_spec (s : Schema) (ind : IND) :
    ((s.add_ind ind).2 = true ↔
      ¬ ∃ ind2 ∈ indsGet s.inds (ind.left_table, ind.right_table),
        ind.is_subset ind2 = true) ∧
    ((s.add_ind ind).2 = true →
      indsGet (s.add_ind ind).1.inds (ind.left_table, ind.right_table)
        = indsGet s.inds (ind.left_table, ind.right_table) ++ [ind]) ∧
    ((s.add_ind ind).2 = false → (s.add_ind ind).1 = s) := by
  by_cases hdom : (indsGet s.inds (ind.left_table, ind.right_table)).any
      (fun ind2 => ind.is_subset ind2) = true
  · have he : s.add_ind ind = (s, false) := by
      simp only [Schema.add_ind, hdom, if_true]
    refine ⟨?_, ?_, ?_⟩
    · rw [he]
      simp only [Bool.false_eq_true, false_iff, not_not]
      exact List.any_eq_true.mp hdom
    · rw [he]
      intro h
      cases h
    · intro _
      rw [he]
  · have he : s.add_ind ind =
        (Schema.mk s.tables
          (indsPut s.inds (ind.left_table, ind.right_table)
            (indsGet s.inds (ind.left_table, ind.right_table) ++ [ind])), true) := by
      simp only [Schema.add_ind]
      rw [if_neg (by simpa using hdom)]
    refine ⟨?_, ?_, ?_⟩
    · rw [he]
      simp only [true_iff]
      intro hex
      exact hdom (List.any_eq_true.mpr hex)
    · intro _
      rw [he]
      show indsGet (indsPut s.inds (ind.left_table, ind.right_table) _) _ = _
      generalize indsGet s.inds (ind.left_table, ind.right_table) ++ [ind] = v
      induction s.inds with
      | nil => simp [indsPut, indsGet]
      | cons p rest ih =>
          by_cases hk : p.1 = (ind.left_table, ind.right_table)
          · simp [indsPut, hk, indsGet]
          · simp only [indsPut]
            rw [if_neg hk]
            simp only [indsGet, List.find?]
            rw [show (decide (p.1 = (ind.left_table, ind.right_table))) = false by
              simpa using hk]
            exact ih
    · rw [he]
      intro h
      cases h

/-- Witness for `add_ind_insertion_spec` at the counterexample input. -/
theorem add_ind_insertion_spec_witness :
    ((sAdd.add_ind ⟨2, [0, 3], 1, [2, 1]⟩).2 = true ↔
      ¬ ∃ ind2 ∈ indsGet sAdd.inds (2, 1),
        IND.is_subset ⟨2, [0, 3], 1, [2, 1]⟩ ind2 = true) ∧
    ((sAdd.add_ind ⟨2, [0, 3], 1, [2, 1]⟩).2 = true →
      indsGet (sAdd.add_ind ⟨2, [0, 3], 1, [2, 1]⟩).1.inds (2, 1)
        = indsGet sAdd.inds (2, 1) ++ [⟨2, [0, 3], 1, [2, 1]⟩]) ∧
    ((sAdd.add_ind ⟨2, [0, 3], 1, [2, 1]⟩).2 = false →
      (sAdd.add_ind ⟨2, [0, 3], 1, [2, 1]⟩).1 = sAdd) :=
  add_ind_insertion_spec sAdd ⟨2, [0, 3], 1, [2, 1]⟩

/-- The buckets kept by `Schema::retain_fk_inds` (src/src/model.rs lines
167-183): in each bucket keyed `(_, right)`, keep only INDs for which the
right table stores an FD keyed exactly by `ind.left_fields` whose rhs
contains every right-side field. -/
def retainFkBuckets (ts : List (TableName × Table)) (m : INDMap) : INDMap :=
  m.map (fun p =>
    (p.1, p.2.filter (fun ind =>
      match fdLookup (tablesGet ts p.1.2).fds ind.left_fields with
      | some fd => ind.right_fields.all (fun f => decide (f ∈ fd.rhs))
      | none => false)))

/-- Schema::retain_fk_inds (src/src/model.rs lines 167-183). -/
def Schema.retain_fk_inds (s : Schema) : Schema :=
  { s with inds := retainFkBuckets s.tables s.inds }

theorem filter_idem {α : Type} (p : α → Bool) (l : List α) :
    (l.filter p).filter p = l.filter p := by
  rw [List.filter_filter]
  apply List.filter_congr
  intro a _
  exact Bool.and_self _

theorem retainFkBuckets_idem (ts : List (TableName × Table)) (m : INDMap) :
    retainFkBuckets ts (retainFkBuckets ts m) = retainFkBuckets ts m := by
  induction m with
  | nil => rfl
  | cons q rest ih =>
      simp only [retainFkBuckets, List.map_cons] at *
      rw [ih]
      congr 1
      exact congrArg _ (filter_idem _ _)

/-- C9: retain_fk_inds is idempotent — a second call immediately after a
first removes no further IND and leaves the schema unchanged. -/
theorem retain_fk_inds_idempotent (s : Schema) :
    (s.retain_fk_inds).retain_fk_inds = s.retain_fk_inds := by
  show Schema.mk s.tables (retainFkBuckets s.tables (retainFkBuckets s.tables s.inds))
      = Schema.mk s.tables (retainFkBuckets s.tables s.inds)
  rw [retainFkBuckets_idem]

/-- Witness for `retain_fk_inds_idempotent` at the concrete schema `sAdd`. -/
theorem retain_fk_inds_idempotent_witness :
    (sAdd.retain_fk_inds).retain_fk_inds = sAdd.retain_fk_inds :=
  retain_fk_inds_idempotent sAdd

/-! Permutation lemmas for IND::reverse. -/

theorem map_getD_range {α : Type} (w : List α) (d : α) :
    (List.range w.length).map (fun i => w.getD i d) = w := by
  apply List.ext_getElem
  · simp
  · intro n h1 h2
    have hn : n < w.length := h2
    rw [List.getElem_map]
    rw [List.getElem_range]
    exact List.getD_eq_getElem w d hn

theorem sortPerm_perm (v : List FieldName) :
    (sortPerm v).Perm (List.range v.length) :=
  List.perm_insertionSort _ _

theorem sortPerm_length (v : List FieldName) :
    (sortPerm v).length = v.length := by
  rw [(sortPerm_perm v).length_eq, List.length_range]

theorem mem_sortPerm_lt (v : List FieldName) (i : Nat) (h : i ∈ sortPerm v) :
    i < v.length :=
  List.mem_range.mp ((sortPerm_perm v).mem_iff.mp h)

theorem applyPerm_perm (σ : List Nat) (w : List FieldName)
    (h : σ.Perm (List.range w.length)) : (applyPerm σ w).Perm w := by
  have hm := List.Perm.map (fun i => w.getD i 0) h
  rw [map_getD_range w 0] at hm
  exact hm

theorem sortPerm_sorted (v : List FieldName) :
    List.Pairwise (sortPermRel v) (sortPerm v) :=
  List.sorted_insertionSort _ _

theorem applyPerm_sortPerm_sorted (v : List FieldName) :
    List.Sorted (· ≤ ·) (applyPerm (sortPerm v) v) := by
  refine List.Pairwise.map _ ?_ (sortPerm_sorted v)
  intro a b hab
  rcases hab with h | ⟨h, _⟩
  · exact le_of_lt h
  · exact le_of_eq h

theorem applyPerm_getD (σ : List Nat) (w : List FieldName) (n : Nat)
    (h : n < σ.length) :
    (applyPerm σ w).getD n 0 = w.getD (σ.getD n 0) 0 := by
  simp only [applyPerm]
  rw [List.getD_eq_getElem _ 0 (by simpa using h), List.getElem_map,
    List.getD_eq_getElem σ 0 h]

theorem applyPerm_eq_of_sorted (σ τ : List Nat) (w : List FieldName)
    (hσ : σ.Perm (List.range w.length)) (hτ : τ.Perm (List.range w.length))
    (hsσ : List.Sorted (· ≤ ·) (applyPerm σ w))
    (hsτ : List.Sorted (· ≤ ·) (applyPerm τ w)) :
    applyPerm σ w = applyPerm τ w :=
  List.eq_of_perm_of_sorted
    ((applyPerm_perm σ w hσ).trans (applyPerm_perm τ w hτ).symm) hsσ hsτ

theorem perm_eq_of_applyPerm_eq (σ τ : List Nat) (w : List FieldName)
    (hσ : σ.Perm (List.range w.length)) (hτ : τ.Perm (List.range w.length))
    (hnd : w.Nodup) (h : applyPerm σ w = applyPerm τ w) : σ = τ := by
  have hσl : σ.length = w.length := by rw [hσ.length_eq, List.length_range]
  have hτl : τ.length = w.length := by rw [hτ.length_eq, List.length_range]
  apply List.ext_getElem
  · rw [hσl, hτl]
  · intro n h1 h2
    have hσn : σ[n] < w.length :=
      List.mem_range.mp (hσ.mem_iff.mp (List.getElem_mem h1))
    have hτn : τ[n] < w.length :=
      List.mem_range.mp (hτ.mem_iff.mp (List.getElem_mem h2))
    have hmap : (applyPerm σ w).getD n 0 = (applyPerm τ w).getD n 0 := by
      rw [h]
    rw [applyPerm_getD σ w n h1, applyPerm_getD τ w n h2] at hmap
    rw [List.getD_eq_getElem σ 0 h1, List.getD_eq_getElem τ 0 h2] at hmap
    rw [List.getD_eq_getElem w 0 hσn, List.getD_eq_getElem w 0 hτn] at hmap
    exact (List.Nodup.getElem_inj_iff hnd).mp hmap

theorem applyPerm_applyPerm (σ2 σ1 : List Nat) (w : List FieldName)
    (hb : ∀ i ∈ σ2, i < σ1.length) :
    applyPerm σ2 (applyPerm σ1 w) = applyPerm (σ2.map (fun i => σ1.getD i 0)) w := by
  simp only [applyPerm, List.map_map]
  apply List.map_congr_left
  intro i hi
  have hlt : i < σ1.length := hb i hi
  simp only [Function.comp]
  rw [List.getD_eq_getElem _ 0 (by simpa using hlt), List.getElem_map,
    List.getD_eq_getElem σ1 0 hlt]

theorem comp_sortPerm_perm (σ2 σ1 : List Nat) (n : Nat)
    (hσ2 : σ2.Perm (List.range σ1.length)) (hσ1 : σ1.Perm (List.range n)) :
    (σ2.map (fun i => σ1.getD i 0)).Perm (List.range n) := by
  have h1 := List.Perm.map (fun i => σ1.getD i 0) hσ2
  rw [map_getD_range σ1 0] at h1
  exact h1.trans hσ1

theorem applyPerm_range (w : List FieldName) :
    applyPerm (List.range w.length) w = w :=
  map_getD_range w 0

/-- The canonical left-sorted form of an IND, following the spec's words
("up to canonical sorting of the left list"): sort the left field list and
apply the same permutation to the right field list.  Comparison definition
for the involution claim. -/
def IND.canonicalizeLeft (ind : IND) : IND :=
  ⟨ind.left_table, applyPerm (sortPerm ind.left_fields) ind.left_fields,
   ind.right_table, applyPerm (sortPerm ind.left_fields) ind.right_fields⟩

/-- C8: for every IND whose field lists have no duplicates (and are aligned),
`reverse (reverse ind)` equals `ind` up to canonical sorting of the left
field list; in particular, when the left list is already sorted,
`reverse (reverse ind) = ind` exactly. -/
theorem ind_reverse_involutive (ind : IND)
    (hl : ind.left_fields.Nodup) (hr : ind.right_fields.Nodup)
    (hlen : ind.left_fields.length = ind.right_fields.length) :
    ind.reverse.reverse = ind.canonicalizeLeft ∧
      (List.Sorted (· ≤ ·) ind.left_fields → ind.reverse.reverse = ind) := by
  obtain ⟨lt, l, rt, r⟩ := ind
  dsimp only at hl hr hlen
  have hσ1p : (sortPerm r).Perm (List.range r.length) := sortPerm_perm r
  have hσ1pl : (sortPerm r).Perm (List.range l.length) := by
    rw [hlen]
    exact hσ1p
  have hσ1l_len : (applyPerm (sortPerm r) l).length = (sortPerm r).length := by
    simp [applyPerm]
  have hσ2p : (sortPerm (applyPerm (sortPerm r) l)).Perm
      (List.range (sortPerm r).length) := by
    have h := sortPerm_perm (applyPerm (sortPerm r) l)
    rw [hσ1l_len] at h
    exact h
  have hbound : ∀ i ∈ sortPerm (applyPerm (sortPerm r) l), i < (sortPerm r).length :=
    fun i hi => List.mem_range.mp (hσ2p.mem_iff.mp hi)
  have hcompl : applyPerm (sortPerm (applyPerm (sortPerm r) l)) (applyPerm (sortPerm r) l)
      = applyPerm ((sortPerm (applyPerm (sortPerm r) l)).map
          (fun i => (sortPerm r).getD i 0)) l :=
    applyPerm_applyPerm _ _ l hbound
  have hcompr : applyPerm (sortPerm (applyPerm (sortPerm r) l)) (applyPerm (sortPerm r) r)
      = applyPerm ((sortPerm (applyPerm (sortPerm r) l)).map
          (fun i => (sortPerm r).getD i 0)) r :=
    applyPerm_applyPerm _ _ r hbound
  have hπp : ((sortPerm (applyPerm (sortPerm r) l)).map
      (fun i => (sortPerm r).getD i 0)).Perm (List.range l.length) :=
    comp_sortPerm_perm _ _ l.length hσ2p hσ1pl
  have hsortedπ : List.Sorted (· ≤ ·)
      (applyPerm ((sortPerm (applyPerm (sortPerm r) l)).map
        (fun i => (sortPerm r).getD i 0)) l) := by
    rw [← hcompl]
    exact applyPerm_sortPerm_sorted (applyPerm (sortPerm r) l)
  have hσlp : (sortPerm l).Perm (List.range l.length) := sortPerm_perm l
  have hsortedσl : List.Sorted (· ≤ ·) (applyPerm (sortPerm l) l) :=
    applyPerm_sortPerm_sorted l
  have heq : applyPerm ((sortPerm (applyPerm (sortPerm r) l)).map
      (fun i => (sortPerm r).getD i 0)) l = applyPerm (sortPerm l) l :=
    applyPerm_eq_of_sorted _ _ l hπp hσlp hsortedπ hsortedσl
  have hπeq : (sortPerm (applyPerm (sortPerm r) l)).map
      (fun i => (sortPerm r).getD i 0) = sortPerm l :=
    perm_eq_of_applyPerm_eq _ _ l hπp hσlp hl heq
  have hmain : (IND.mk lt l rt r).reverse.reverse = (IND.mk lt l rt r).canonicalizeLeft := by
    show (IND.mk lt
      (applyPerm (sortPerm (applyPerm (sortPerm r) l)) (applyPerm (sortPerm r) l)) rt
      (applyPerm (sortPerm (applyPerm (sortPerm r) l)) (applyPerm (sortPerm r) r)))
      = IND.mk lt (applyPerm (sortPerm l) l) rt (applyPerm (sortPerm l) r)
    rw [hcompl, hcompr, hπeq]
  refine ⟨hmain, ?_⟩
  intro hs
  have hσlid : sortPerm l = List.range l.length := by
    apply perm_eq_of_applyPerm_eq (sortPerm l) (List.range l.length) l hσlp
      (List.Perm.refl _) hl
    rw [applyPerm_range l]
    exact List.eq_of_perm_of_sorted (applyPerm_perm _ l hσlp) hsortedσl hs
  rw [hmain]
  show IND.mk lt (applyPerm (sortPerm l) l) rt (applyPerm (sortPerm l) r)
      = IND.mk lt l rt r
  rw [hσlid, applyPerm_range l]
  have h2 : applyPerm (List.range l.length) r = r := by
    rw [hlen]
    exact applyPerm_range r
  rw [h2]

/-- Witness for `ind_reverse_involutive`: the IND foo(bar, baz) ≤
qux(quux, corge) (sorted duplicate-free left list) is restored exactly by a
double reverse. -/
theorem ind_reverse_involutive_witness :
    IND.reverse (IND.reverse ⟨1, [0, 1], 2, [3, 2]⟩) = ⟨1, [0, 1], 2, [3, 2]⟩ :=
  (ind_reverse_involutive ⟨1, [0, 1], 2, [3, 2]⟩ (by decide) (by decide)
    (by decide)).2 (by decide)

/-!
Schema::prune_inds (src/src/model.rs lines 122-164): drop buckets whose
tables vanished, drop field positions missing on either side from both lists
in lockstep, drop INDs that became empty.
-/

/-- The retained index set of `prune_inds` for one IND: position `i` is kept
when the left field at `i` still exists in the left table and the right
field at `i` still exists in the right table (the intersection of
`left_indexes` and `right_indexes` in the source). -/
def pruneRetain (lt rt : Table) (ind : IND) (i : Nat) : Bool :=
  (decide (i < ind.left_fields.length) && lt.hasField (ind.left_fields.getD i 0)) &&
  (decide (i < ind.right_fields.length) && rt.hasField (ind.right_fields.getD i 0))

/-- The removal loop `for index in (0..left_fields.len()).rev()` of
`prune_inds`: walk the indices downwards, removing a non-retained index from
both lists. -/
def pruneLoop (retain : Nat → Bool) : Nat → List FieldName → List FieldName →
    List FieldName × List FieldName
  | 0, l, r => (l, r)
  | k + 1, l, r =>
    if retain k then pruneLoop retain k l r
    else pruneLoop retain k (l.eraseIdx k) (r.eraseIdx k)

/-- Field pruning of a single IND. -/
def pruneIndFields (lt rt : Table) (ind : IND) : IND :=
  let p := pruneLoop (pruneRetain lt rt ind) ind.left_fields.length
    ind.left_fields ind.right_fields
  ⟨ind.left_table, p.1, ind.right_table, p.2⟩

/-- Schema::prune_inds (src/src/model.rs lines 122-164). -/
def Schema.prune_inds (s : Schema) : Schema :=
  let inds1 := s.inds.filter (fun p =>
    tablesContains s.tables p.1.1 && tablesContains s.tables p.1.2)
  let inds2 := inds1.map (fun p => (p.1, p.2.map (fun ind =>
    pruneIndFields (tablesGet s.tables ind.left_table)
      (tablesGet s.tables ind.right_table) ind)))
  let inds3 := inds2.map (fun p => (p.1, p.2.filter (fun ind =>
    !ind.left_fields.isEmpty && !ind.right_fields.isEmpty)))
  { s with inds := inds3 }

/-- The positions kept by the removal loop, described directly: the retained
indices below `k`, in order, followed by the untouched tail from `k` on. -/
def keepIdx (retain : Nat → Bool) (k : Nat) (l : List FieldName) : List FieldName :=
  ((List.range k).filter retain).map (fun i => l.getD i 0) ++ l.drop k

theorem keepIdx_succ_true (retain : Nat → Bool) (k : Nat) (l : List FieldName)
    (hret : retain k = true) (hk : k < l.length) :
    keepIdx retain (k + 1) l = keepIdx retain k l := by
  have h1 : List.filter retain [k] = [k] := by
    simp [List.filter, hret]
  simp only [keepIdx, List.range_succ, List.filter_append, h1, List.map_append,
    List.map_cons, List.map_nil]
  rw [List.drop_eq_getElem_cons hk, List.getD_eq_getElem l 0 hk]
  simp

theorem keepIdx_succ_false (retain : Nat → Bool) (k : Nat) (l : List FieldName)
    (hret : retain k = false) (hk : k < l.length) :
    keepIdx retain k (l.eraseIdx k) = keepIdx retain (k + 1) l := by
  have he : l.eraseIdx k = l.take k ++ l.drop (k + 1) :=
    List.eraseIdx_eq_take_drop_succ l k
  have htk : (l.take k).length = k := by
    rw [List.length_take]
    exact Nat.min_eq_left (Nat.le_of_lt hk)
  simp only [keepIdx, List.range_succ, List.filter_append, List.map_append]
  have h1 : List.filter retain [k] = [] := by
    simp [List.filter, hret]
  rw [h1]
  simp only [List.map_nil, List.append_nil]
  have hdrop : (l.eraseIdx k).drop k = l.drop (k + 1) := by
    rw [he]
    have h2 := List.drop_left (l.take k) (l.drop (k + 1))
    rwa [htk] at h2
  rw [hdrop]
  have hmap : ((List.range k).filter retain).map (fun i => (l.eraseIdx k).getD i 0)
      = ((List.range k).filter retain).map (fun i => l.getD i 0) := by
    apply List.map_congr_left
    intro i hi
    have hik : i < k := List.mem_range.mp (List.mem_of_mem_filter hi)
    have hil : i < l.length := Nat.lt_trans hik hk
    have hit : i < (l.take k).length := by
      rw [htk]
      exact hik
    have hia : i < (l.take k ++ l.drop (k + 1)).length := by
      rw [List.length_append, htk]
      exact Nat.lt_of_lt_of_le hik (Nat.le_add_right _ _)
    rw [he]
    rw [List.getD_eq_getElem _ 0 hia, List.getD_eq_getElem l 0 hil]
    rw [List.getElem_append_left hit]
    exact List.getElem_take l
  rw [hmap]

theorem pruneLoop_eq_keepIdx (retain : Nat → Bool) (k : Nat)
    (l r : List FieldName) (hkl : k ≤ l.length) (hkr : k ≤ r.length) :
    pruneLoop retain k l r = (keepIdx retain k l, keepIdx retain k r) := by
  induction k generalizing l r with
  | zero => simp [pruneLoop, keepIdx]
  | succ k ih =>
      have hkl2 : k < l.length := Nat.lt_of_lt_of_le (Nat.lt_succ_self k) hkl
      have hkr2 : k < r.length := Nat.lt_of_lt_of_le (Nat.lt_succ_self k) hkr
      by_cases hret : retain k = true
      · simp only [pruneLoop, hret, if_true]
        rw [ih l r (Nat.le_of_lt hkl2) (Nat.le_of_lt hkr2)]
        rw [keepIdx_succ_true retain k l hret hkl2,
          keepIdx_succ_true retain k r hret hkr2]
      · have hretf : retain k = false := Bool.eq_false_iff.mpr hret
        simp only [pruneLoop, hretf, Bool.false_eq_true, if_false]
        have hle : k ≤ (l.eraseIdx k).length := by
          rw [List.length_eraseIdx_of_lt hkl2]
          exact Nat.le_sub_one_of_lt hkl2
        have hre : k ≤ (r.eraseIdx k).length := by
          rw [List.length_eraseIdx_of_lt hkr2]
          exact Nat.le_sub_one_of_lt hkr2
        rw [ih _ _ hle hre]
        rw [keepIdx_succ_false retain k l hretf hkl2,
          keepIdx_succ_false retain k r hretf hkr2]

/-- C6: after prune_inds, every retained IND sits in a bucket whose two
tables exist, refers to those tables, lists only fields that exist in the
corresponding table, has its two field lists of equal length obtained by
dropping the same positions from both lists of some original IND of the same
bucket (lockstep, alignment-preserving), and is non-empty on both sides.
Hypotheses are the schema invariants: bucket keys match IND tables and field
lists are aligned. -/
theorem prune_inds_spec (s : Schema)
    (hkey : ∀ p ∈ s.inds, ∀ ind ∈ p.2, ind.left_table = p.1.1 ∧ ind.right_table = p.1.2)
    (hlen : ∀ p ∈ s.inds, ∀ ind ∈ p.2, ind.left_fields.length = ind.right_fields.length) :
    ∀ p ∈ (s.prune_inds).inds,
      tablesContains s.tables p.1.1 = true ∧ tablesContains s.tables p.1.2 = true ∧
      ∀ ind ∈ p.2,
        ind.left_table = p.1.1 ∧ ind.right_table = p.1.2 ∧
        tablesContains s.tables ind.left_table = true ∧
        tablesContains s.tables ind.right_table = true ∧
        (∀ f ∈ ind.left_fields, (tablesGet s.tables ind.left_table).hasField f = true) ∧
        (∀ f ∈ ind.right_fields, (tablesGet s.tables ind.right_table).hasField f = true) ∧
        ind.left_fields.length = ind.right_fields.length ∧
        ind.left_fields ≠ [] ∧ ind.right_fields ≠ [] ∧
        ∃ q ∈ s.inds, q.1 = p.1 ∧ ∃ ind0 ∈ q.2, ∃ keep : List Nat,
          ind.left_fields = keep.map (fun i => ind0.left_fields.getD i 0) ∧
          ind.right_fields = keep.map (fun i => ind0.right_fields.getD i 0) := by
  intro p hp
  simp only [Schema.prune_inds] at hp
  rcases List.mem_map.mp hp with ⟨p2, hp2, hp2e⟩
  rcases List.mem_map.mp hp2 with ⟨q, hq, hqe⟩
  obtain ⟨hqmem, hqpred⟩ := List.mem_filter.mp hq
  obtain ⟨hc1, hc2⟩ : tablesContains s.tables q.1.1 = true ∧
      tablesContains s.tables q.1.2 = true := by
    simpa [Bool.and_eq_true] using hqpred
  subst hqe
  subst hp2e
  refine ⟨hc1, hc2, ?_⟩
  intro ind hind
  obtain ⟨hindm, hindne⟩ := List.mem_filter.mp hind
  rcases List.mem_map.mp hindm with ⟨ind0, hind0, hinde⟩
  obtain ⟨hkey1, hkey2⟩ := hkey q hqmem ind0 hind0
  have hlen0 := hlen q hqmem ind0 hind0
  have hload := pruneLoop_eq_keepIdx
    (pruneRetain (tablesGet s.tables ind0.left_table)
      (tablesGet s.tables ind0.right_table) ind0)
    ind0.left_fields.length ind0.left_fields ind0.right_fields
    (Nat.le_refl _) (Nat.le_of_eq hlen0)
  have hindeq : ind = ⟨ind0.left_table,
      keepIdx (pruneRetain (tablesGet s.tables ind0.left_table)
        (tablesGet s.tables ind0.right_table) ind0)
        ind0.left_fields.length ind0.left_fields,
      ind0.right_table,
      keepIdx (pruneRetain (tablesGet s.tables ind0.left_table)
        (tablesGet s.tables ind0.right_table) ind0)
        ind0.left_fields.length ind0.right_fields⟩ := by
    rw [← hinde]
    simp only [pruneIndFields, hload]
  have hdl : ind0.left_fields.drop ind0.left_fields.length = [] :=
    List.drop_length _
  have hdr : ind0.right_fields.drop ind0.left_fields.length = [] := by
    rw [hlen0]
    exact List.drop_length _
  have hl_eq : ind.left_fields
      = ((List.range ind0.left_fields.length).filter
          (pruneRetain (tablesGet s.tables ind0.left_table)
            (tablesGet s.tables ind0.right_table) ind0)).map
        (fun i => ind0.left_fields.getD i 0) := by
    rw [hindeq]
    simp [keepIdx, hdl]
  have hr_eq : ind.right_fields
      = ((List.range ind0.left_fields.length).filter
          (pruneRetain (tablesGet s.tables ind0.left_table)
            (tablesGet s.tables ind0.right_table) ind0)).map
        (fun i => ind0.right_fields.getD i 0) := by
    rw [hindeq]
    simp [keepIdx, hdr]
  have hlt : ind.left_table = ind0.left_table := by
    rw [hindeq]
  have hrt : ind.right_table = ind0.right_table := by
    rw [hindeq]
  refine ⟨hlt.trans hkey1, hrt.trans hkey2, ?_, ?_, ?_, ?_, ?_, ?_, ?_, ?_⟩
  · rw [hlt, hkey1]
    exact hc1
  · rw [hrt, hkey2]
    exact hc2
  · intro f hf
    rw [hl_eq] at hf
    rcases List.mem_map.mp hf with ⟨i, hikeep, hfe⟩
    have hiret := List.of_mem_filter hikeep
    have hhas : (tablesGet s.tables ind0.left_table).hasField
        (ind0.left_fields.getD i 0) = true := by
      have h1 := (Bool.and_eq_true _ _).mp hiret
      exact ((Bool.and_eq_true _ _).mp h1.1).2
    rw [hlt, ← hfe]
    exact hhas
  · intro f hf
    rw [hr_eq] at hf
    rcases List.mem_map.mp hf with ⟨i, hikeep, hfe⟩
    have hiret := List.of_mem_filter hikeep
    have hhas : (tablesGet s.tables ind0.right_table).hasField
        (ind0.right_fields.getD i 0) = true := by
      have h1 := (Bool.and_eq_true _ _).mp hiret
      exact ((Bool.and_eq_true _ _).mp h1.2).2
    rw [hrt, ← hfe]
    exact hhas
  · rw [hl_eq, hr_eq]
    simp
  · have h1 := (Bool.and_eq_true _ _).mp hindne
    simpa [List.isEmpty_iff] using h1.1
  · have h1 := (Bool.and_eq_true _ _).mp hindne
    simpa [List.isEmpty_iff] using h1.2
  · exact ⟨q, hqmem, rfl, ind0, hind0, _, hl_eq, hr_eq⟩

/-- Concrete schema for the prune witness (test `schema_prune_inds_fields`
in src/src/model.rs): tables foo(bar) and qux(quux) with the stale IND
foo(bar, baz) ≤ qux(quux, corge).  Names: bar = 0, baz = 1, corge = 2,
quux = 3; tables foo = 1, qux = 2. -/
def sPrune : Schema :=
  ⟨[(1, ⟨1, [(0, ⟨0, true, none, none⟩)], [], none⟩),
    (2, ⟨2, [(3, ⟨3, true, none, none⟩)], [], none⟩)],
   [((1, 2), [⟨1, [0, 1], 2, [3, 2]⟩])]⟩

/-- Witness for `prune_inds_spec` at `sPrune`, whose pruned bucket holds
foo(bar) ≤ qux(quux). -/
theorem prune_inds_spec_witness :
    tablesContains sPrune.tables 1 = true ∧ tablesContains sPrune.tables 2 = true := by
  have h := prune_inds_spec sPrune (by decide) (by decide)
    ((1, 2), [⟨1, [0], 2, [3]⟩]) (by decide)
  exact ⟨h.1, h.2.1⟩

/-!
Table-level FD plumbing (src/src/model.rs) and the `_base` half of
`Normalizer::decomposed_tables` (src/src/normalize.rs lines 19-49), in the
deterministic configuration (`use_stats = false`, no threshold), which is
the default used by the spec's scenarios.
-/

/-- Table::key_fields (src/src/model.rs lines 556-562), a `HashSet` in the
source, in canonical form. -/
def Table.key_fields (t : Table) : List FieldName :=
  canon ((t.fields.filter (fun p => p.2.key)).map (fun p => p.2.name))

/-- Table::is_superkey (src/src/model.rs lines 565-567). -/
def Table.is_superkey (t : Table) (fields : List FieldName) : Bool :=
  setSubset t.key_fields fields

/-- Table::violating_fd (src/src/model.rs lines 575-624) in deterministic
mode: the first stored FD that is non-trivial and whose lhs is not a
superkey. -/
def Table.violating_fd (t : Table) : Option FD :=
  (fdValues t.fds).find? (fun fd => !fd.is_trivial && !t.is_superkey fd.lhs)

/-- Table::add_fd (src/src/model.rs lines 498-520): sort and dedup the lhs,
merge the rhs of an existing entry with the same key, insert, close. -/
def Table.add_fd (fuel : Nat) (t : Table) (lhs0 rhs0 : List FieldName) : Table :=
  let lhs := (lhs0.insertionSort (· ≤ ·)).dedup
  let rhs := match fdLookup t.fds lhs with
    | some old => rhs0 ++ old.rhs
    | none => rhs0
  { t with fds := runClosure fuel (fdInsert t.fds lhs ⟨canon lhs, canon rhs⟩) }

/-- Table::add_pk_fd (src/src/model.rs lines 415-427): add the FD
key fields → non-key fields when both partitions are non-empty. -/
def Table.add_pk_fd (fuel : Nat) (t : Table) : Table :=
  let lhs_names := (t.fields.filter (fun p => p.2.key)).map (fun p => p.2.name)
  let rhs_names := (t.fields.filter (fun p => !p.2.key)).map (fun p => p.2.name)
  if !lhs_names.isEmpty && !rhs_names.isEmpty then
    t.add_fd fuel lhs_names rhs_names
  else t

/-- One step of Table::copy_fds (src/src/model.rs lines 535-553): restrict
the incoming FD to the destination's fields and add it when both restricted
sides are non-empty. -/
def copyFdsStep (fuel : Nat) (acc : Table) (p : List FieldName × FD) : Table :=
  let new_lhs := p.2.lhs.filter (fun f => acc.hasField f)
  let new_rhs := p.2.rhs.filter (fun f => acc.hasField f)
  if !new_lhs.isEmpty && !new_rhs.isEmpty then
    acc.add_fd fuel new_lhs new_rhs
  else acc

/-- Table::copy_fds (src/src/model.rs lines 535-553). -/
def Table.copy_fds (fuel : Nat) (t other : Table) : Table :=
  other.fds.foldl (copyFdsStep fuel) t

/-- String concatenation of interned names (e.g. `"<T>_base"`,
`"<left>_<right>"`): over opaque symbols this is an injective combination of
the two symbols, modelled by the Cantor pairing. -/
def nameConcat (a b : Nat) : Nat :=
  (a + b) * (a + b + 1) / 2 + b

/-- The `"<T>_base"` name of a decomposed table. -/
def nameBase (n : TableName) : TableName := nameConcat n 1

/-- The `t1` (`_base`) table built by `Normalizer::decomposed_tables`
(src/src/normalize.rs lines 28-49): keep the fields whose key is not in the
rhs of the violating FD, demote keys named in the rhs (dead after the
filter), then `add_pk_fd` and `copy_fds` from the parent; `none` when the
table has no violating FD. -/
def decomposedBase (fuel : Nat) (t : Table) : Option Table :=
  match t.violating_fd with
  | none => none
  | some vfd =>
    let t1_fields := (t.fields.filter (fun p => !decide (p.1 ∈ vfd.rhs))).map (fun p =>
      (p.1, if p.2.key ∧ p.2.name ∈ vfd.rhs then
        TableField.mk p.2.name false p.2.cardinality p.2.max_length
      else p.2))
    let t1 := Table.mk (nameBase t.name) t1_fields [] none
    some ((t1.add_pk_fd fuel).copy_fds fuel t)

theorem add_fd_fields (fuel : Nat) (t : Table) (lhs0 rhs0 : List FieldName) :
    (t.add_fd fuel lhs0 rhs0).fields = t.fields := rfl

theorem add_pk_fd_fields (fuel : Nat) (t : Table) :
    (t.add_pk_fd fuel).fields = t.fields := by
  unfold Table.add_pk_fd
  dsimp only
  split
  · exact add_fd_fields _ _ _ _
  · rfl

theorem copyFdsStep_fields (fuel : Nat) (acc : Table) (p : List FieldName × FD) :
    (copyFdsStep fuel acc p).fields = acc.fields := by
  unfold copyFdsStep
  dsimp only
  split
  · exact add_fd_fields _ _ _ _
  · rfl

theorem foldl_copyFdsStep_fields (fuel : Nat) (l : FDMap) (t : Table) :
    (l.foldl (copyFdsStep fuel) t).fields = t.fields := by
  induction l generalizing t with
  | nil => rfl
  | cons p rest ih =>
      rw [List.foldl_cons, ih, copyFdsStep_fields]

theorem copy_fds_fields (fuel : Nat) (t other : Table) :
    (t.copy_fds fuel other).fields = t.fields :=
  foldl_copyFdsStep_fields fuel other.fds t

/-- The C2 counterexample table: foo(*a, b, c) with the single (violating)
FD b → {b, c}, whose lhs and rhs overlap in b.  Names a = 0, b = 1, c = 2;
table foo = 1. -/
def tDec : Table :=
  ⟨1,
   [(0, ⟨0, true, none, none⟩), (1, ⟨1, false, none, none⟩), (2, ⟨2, false, none, none⟩)],
   [([1], ⟨[1], [1, 2]⟩)],
   none⟩

/-- C2 counterexample: decomposing `tDec` on its violating FD X → Y with
X = {b}, Y = {b, c}, the claim demands the field set X ∪ (fields \ Y)
= {a, b} (b lies in both X and Y and would be kept), but the produced
T_base drops every field of Y, so b is absent. -/
theorem decomposed_base_counterexample :
    Table.violating_fd tDec = some ⟨[1], [1, 2]⟩ ∧
    (1 : FieldName) ∈ (FD.mk [1] [1, 2]).lhs ∧
    (decomposedBase 5 tDec).map (fun t1 => t1.hasField 1) = some false ∧
    (decomposedBase 5 tDec).map (fun t1 => t1.fields.map Prod.fst) = some [0] :=
  ⟨by decide, by decide, by decide, by decide⟩

/-- C2 amended: for a table with a violating FD X → Y (deterministic
selector) whose field map is well-formed, the produced T_base has exactly
the fields of T whose name is not in Y — fields lying in both X and Y are
dropped, not kept — each with its original field record, so keys named in Y
do not survive at all and every surviving field keeps its key flag. -/
theorem decomposed_base_fields_spec (fuel : Nat) (t : Table) (vfd : FD)
    (hv : t.violating_fd = some vfd)
    (hname : ∀ p ∈ t.fields, p.2.name = p.1) :
    ∃ t1, decomposedBase fuel t = some t1 ∧
      t1.fields = t.fields.filter (fun p => !decide (p.1 ∈ vfd.rhs)) := by
  unfold decomposedBase
  rw [hv]
  refine ⟨_, rfl, ?_⟩
  rw [copy_fds_fields, add_pk_fd_fields]
  show (t.fields.filter (fun p => !decide (p.1 ∈ vfd.rhs))).map _
      = t.fields.filter (fun p => !decide (p.1 ∈ vfd.rhs))
  have hid : ∀ p ∈ t.fields.filter (fun p => !decide (p.1 ∈ vfd.rhs)),
      (p.1, if p.2.key ∧ p.2.name ∈ vfd.rhs then
        TableField.mk p.2.name false p.2.cardinality p.2.max_length
      else p.2) = id p := by
    intro p hp
    obtain ⟨hmem, hpred⟩ := List.mem_filter.mp hp
    have hnot : ¬ (p.2.key ∧ p.2.name ∈ vfd.rhs) := by
      intro hcontra
      have h1 : p.2.name = p.1 := hname p hmem
      have h2 : ¬ (p.1 ∈ vfd.rhs) := by
        simpa using hpred
      exact h2 (h1 ▸ hcontra.2)
    rw [if_neg hnot]
    exact Prod.mk.eta
  rw [List.map_congr_left hid, List.map_id]

/-- Witness for `decomposed_base_fields_spec` at `tDec`. -/
theorem decomposed_base_fields_spec_witness :
    ∃ t1, decomposedBase 5 tDec = some t1 ∧
      t1.fields = tDec.fields.filter
        (fun p => !decide (p.1 ∈ (FD.mk [1] [1, 2]).rhs)) :=
  decomposed_base_fields_spec 5 tDec ⟨[1], [1, 2]⟩ (by decide) (by decide)

/-!
Schema::copy_inds (src/src/model.rs lines 75-119) and
Normalizer::subsume (src/src/normalize.rs lines 157-374), in the
deterministic configuration.
-/

/-- Schema::copy_inds: for every IND mentioning `src` on a side sharing at
least one field with `dst`, stage a copy with that side's table replaced by
`dst`; then add them all and prune. -/
def Schema.copy_inds (s : Schema) (src dst : TableName) : Schema :=
  let dst_table := tablesGet s.tables dst
  let new_inds := s.inds.flatMap (fun p => p.2.flatMap (fun ind =>
    (if ind.left_table = src ∧ ind.left_fields.any (fun f => dst_table.hasField f)
     then [IND.mk dst ind.left_fields ind.right_table ind.right_fields] else []) ++
    (if ind.right_table = src ∧ ind.right_fields.any (fun f => dst_table.hasField f)
     then [IND.mk ind.left_table ind.left_fields dst ind.right_fields] else [])))
  let s2 := new_inds.foldl (fun acc ind => (acc.add_ind ind).1) s
  s2.prune_inds

/-- Indexing `table.fields[f]` (panics in Rust when absent; defaulted here,
unreachable under the schema invariants). -/
def fieldGet (t : Table) (f : FieldName) : TableField :=
  (((t.fields.find? (fun p => decide (p.1 = f))).map Prod.snd).getD ⟨0, false, none, none⟩)

/-- IndexMap::remove (a swap-remove in the indexmap version used): replace
the entry by the last one and pop. -/
def imapSwapRemove (fields : List (FieldName × TableField)) (f : FieldName) :
    List (FieldName × TableField) :=
  match fields.findIdx? (fun p => decide (p.1 = f)) with
  | none => fields
  | some i =>
    match fields.getLast? with
    | none => fields
    | some last => (fields.set i last).dropLast

/-- The stage-1 per-IND check of `subsume` (src/src/normalize.rs lines
166-210): when the IND spans two tables and its right side covers the right
table's key, translate the rhs of every FD applicable on the right side back
to left-side fields; the translated fields still present in the left table
are scheduled for removal. -/
def subsumeCheckInd (s : Schema) (ind : IND) : Option (TableName × List FieldName) :=
  if ind.left_table = ind.right_table then none
  else
    let right_table := tablesGet s.tables ind.right_table
    let right_key := right_table.key_fields
    if ¬ (right_key.all (fun v => decide (v ∈ ind.right_fields))) then none
    else
      let fds := (fdValues right_table.fds).filter (fun fd =>
        fd.lhs.all (fun f => decide (f ∈ ind.right_fields)))
      let fd_fields := canon (fds.flatMap (fun fd =>
        fd.rhs.filterMap (fun field =>
          match ind.right_fields.findIdx? (fun f => decide (f = field)) with
          | some idx => some (ind.left_fields.getD idx 0)
          | none => none)))
      let left_table := tablesGet s.tables ind.left_table
      let remove_fields := ind.left_fields.filter (fun f =>
        decide (f ∈ fd_fields) && left_table.hasField f)
      if remove_fields.isEmpty then none
      else some (ind.left_table, remove_fields)

/-- The stage-1 scan: the inner loop breaks on the first hit of a bucket,
while later buckets overwrite an earlier hit (the Rust `break` only leaves
the inner loop). -/
def subsumeFindRemove (s : Schema) : Option (TableName × List FieldName) :=
  s.inds.foldl (fun acc p =>
    match p.2.findSome? (fun ind => subsumeCheckInd s ind) with
    | some tr => some tr
    | none => acc) none

/-- Applying a stage-1 removal (src/src/normalize.rs lines 213-233): drop
the fields from the table, prune its FDs, and drop the table when its field
set became empty. -/
def subsumeApplyRemove (s : Schema) (tr : TableName × List FieldName) : Schema :=
  let tables2 := s.tables.map (fun p =>
    if p.1 = tr.1 then
      (p.1, Table.prune_fds { p.2 with fields := tr.2.foldl imapSwapRemove p.2.fields })
    else p)
  let tables3 := tables2.filter (fun p => !(decide (p.1 = tr.1) && p.2.fields.isEmpty))
  { s with tables := tables3 }

/-- The stage-1 `while changed` loop of `subsume` (fuel-bounded); every
iteration ends with `prune_inds`, including the final one. -/
def subsumeStage1 : Nat → Schema → Bool → Schema × Bool
  | 0, s, any => (s, any)
  | fuel + 1, s, any =>
    match subsumeFindRemove s with
    | some tr => subsumeStage1 fuel (Schema.prune_inds (subsumeApplyRemove s tr)) true
    | none => (s.prune_inds, any)

/-- Stage 2 collection (src/src/normalize.rs lines 240-257): tables whose
whole field set is covered by the left side of an IND whose reverse is
present. -/
def subsumeStage2Collect (s : Schema) : List TableName :=
  s.inds.foldl (fun acc0 p =>
    p.2.foldl (fun acc ind =>
      if ind.left_table = ind.right_table ∧ ¬ (ind.right_table ∈ acc) then acc
      else
        let left_table := tablesGet s.tables ind.left_table
        if left_table.fields.all (fun fp => decide (fp.1 ∈ ind.left_fields)) then
          (if s.contains_ind ind.reverse then acc ++ [ind.left_table] else acc)
        else acc) acc0) []

/-- Stage 2 (whole-table subsumption). -/
def subsumeStage2 (s : Schema) : Schema × Bool :=
  let remove := subsumeStage2Collect s
  if remove.isEmpty then (s, false)
  else
    let s2 := { s with tables := s.tables.filter (fun p => !decide (p.1 ∈ remove)) }
    (s2.prune_inds, true)

/-- The fresh-name loop of the stage-3 merge (src/src/normalize.rs lines
327-332): append the numeric suffix to the accumulated name until it is not
a field of the merged table (fuel-bounded). -/
def freshName : Nat → FieldName → Nat → List (FieldName × TableField) → FieldName
  | 0, name, _, _ => name
  | fuel + 1, name, suffix, fields =>
    if fields.any (fun p => decide (p.1 = name)) then
      freshName fuel (nameConcat name suffix) (suffix + 1) fields
    else name

/-- Lookup in the rename map `new_right_names` (indexing panics in Rust when
absent; defaulted to the unrenamed field). -/
def rnLookup (rn : List (FieldName × FieldName)) (f : FieldName) : FieldName :=
  (((rn.find? (fun p => decide (p.1 = f))).map Prod.snd).getD f)

/-- One right-table field of the stage-3 merge: skip already-renamed keys,
otherwise insert under a fresh name, recording the rename. -/
def mergeFieldStep (fuel : Nat) (acc : Table × List (FieldName × FieldName))
    (p : FieldName × TableField) : Table × List (FieldName × FieldName) :=
  if acc.2.any (fun q => decide (q.1 = p.2.name)) then acc
  else
    let new_name := freshName fuel p.2.name 2 acc.1.fields
    (⟨{ acc.1 with fields := acc.1.fields ++
        [(new_name, TableField.mk new_name p.2.key p.2.cardinality p.2.max_length)] },
      acc.2 ++ [(p.2.name, new_name)]⟩)

/-- The merged table of stage 3 (src/src/normalize.rs lines 300-347): copy
the left table's fields and FDs, alias each right key to the left key at the
same position, add the remaining right fields under fresh names, copy the
right FDs through the rename map, and seed the primary-key FD. -/
def mergeTables (fuel : Nat) (left_table right_table : Table)
    (left_keys right_keys : List (Nat × FieldName)) : Table :=
  let t0 := Table.mk (nameConcat left_table.name right_table.name)
    left_table.fields [] none
  let t1 := left_table.fds.foldl (fun acc p => acc.add_fd fuel p.2.lhs p.2.rhs) t0
  let rn0 := (right_keys.zip left_keys).map (fun q => (q.1.2, q.2.2))
  let t2rn := right_table.fields.foldl (mergeFieldStep fuel) (t1, rn0)
  let t3 := right_table.fds.foldl (fun acc q =>
    acc.add_fd fuel (q.2.lhs.map (rnLookup t2rn.2)) (q.2.rhs.map (rnLookup t2rn.2))) t2rn.1
  t3.add_pk_fd fuel

/-- The stage-3 scan (src/src/normalize.rs lines 270-356): for each IND with
`left_table < right_table`, none of whose tables is already staged for
removal, whose key positions coincide on both sides covering both key sets,
and whose reverse is present, stage the merged table and both old tables. -/
def subsumeStage3Scan (fuel : Nat) (s : Schema) :
    List TableName × List (Table × TableName × TableName) :=
  s.inds.foldl (fun acc0 p =>
    p.2.foldl (fun acc ind =>
      if ind.left_table ∈ acc.1 ∨ ind.right_table ∈ acc.1 ∨
          ind.right_table ≤ ind.left_table then acc
      else
        let left_table := tablesGet s.tables ind.left_table
        let right_table := tablesGet s.tables ind.right_table
        let left_keys := ind.left_fields.enum.filter
          (fun q => (fieldGet left_table q.2).key)
        let right_keys := ind.right_fields.enum.filter
          (fun q => (fieldGet right_table q.2).key)
        let keys_match := (left_keys.map Prod.fst = right_keys.map Prod.fst) ∧
          left_table.key_fields.length = left_keys.length ∧
          right_table.key_fields.length = right_keys.length
        if keys_match ∧ s.contains_ind ind.reverse then
          (acc.1 ++ [ind.left_table, ind.right_table],
           acc.2 ++ [(mergeTables fuel left_table right_table left_keys right_keys,
             ind.left_table, ind.right_table)])
        else acc) acc0) ([], [])

/-- Stage 3 application (src/src/normalize.rs lines 358-371): insert each
merged table and copy the INDs of both old tables onto it, remove the old
tables, prune. -/
def subsumeStage3 (fuel : Nat) (s : Schema) : Schema × Bool :=
  let scan := subsumeStage3Scan fuel s
  let s2 := scan.2.foldl (fun acc q =>
    ((Schema.mk (tablesPut acc.tables q.1.name q.1) acc.inds).copy_inds
      q.2.1 q.1.name).copy_inds q.2.2 q.1.name) s
  let s3 := { s2 with tables := s2.tables.filter (fun p => !decide (p.1 ∈ scan.1)) }
  (s3.prune_inds, !scan.2.isEmpty)

/-- Normalizer::subsume (src/src/normalize.rs lines 157-374): the three
stages in order, reporting whether anything changed. -/
def subsume (fuel : Nat) (s : Schema) : Schema × Bool :=
  let r1 := subsumeStage1 fuel s false
  let r2 := subsumeStage2 r1.1
  let r3 := subsumeStage3 fuel r2.1
  (r3.1, r1.2 || r2.2 || r3.2)

/-- Scenario S5 (test `subsume_fields` in src/src/normalize.rs): tables
foo(*bar, baz) and qux(*quux, corge) with FD quux → corge in qux, and the
IND foo(bar, baz) ≤ qux(quux, corge).  Names: bar = 0, baz = 1, corge = 2,
quux = 3; tables foo = 1, qux = 2. -/
def sSub : Schema :=
  ⟨[(1, ⟨1, [(0, ⟨0, true, none, none⟩), (1, ⟨1, false, none, none⟩)], [], none⟩),
    (2, ⟨2, [(3, ⟨3, true, none, none⟩), (2, ⟨2, false, none, none⟩)],
      [([3], ⟨[3], [2]⟩)], none⟩)],
   [((1, 2), [⟨1, [0, 1], 2, [3, 2]⟩])]⟩

/-- C7: after `subsume` on scenario S5, the field set of table foo is
exactly {bar}, and the call reports a change. -/
theorem subsume_field_removal_scenario :
    (tablesFind (subsume 6 sSub).1.tables 1).map (fun t => t.fields.map Prod.fst)
      = some [0] ∧ (subsume 6 sSub).2 = true := by
  refine ⟨by decide, by decide⟩
